import Mathlib

/- Verification of the MWA correlator FITS ingest path of pyuvdata
(`pyuvdata/mwa_corr_fits.py`), via a shallow embedding of its
coarse-channel bookkeeping, PFB index remapping, frequency-grid
assembly, raw-data scatter and antenna/polarization/baseline
reindexing.

Python dicts built by assignment loops are modelled as folds of
pointwise function updates (`dictOf`): a later assignment to the same
key overrides an earlier one, and lookup of an absent key yields `none`
(a `KeyError` in Python). Machine floats appearing in the
frequency-grid arithmetic are modelled as rationals; at every concrete
input used below the Python float computation is exact, so the rational
model agrees with it. -/

/-- One step of dict assignment: `d[k] = v`. -/
def dictUpd {κ ν : Type} [DecidableEq κ] (m : κ → Option ν) (kv : κ × ν) : κ → Option ν :=
  fun x => if x = kv.1 then some kv.2 else m x

/-- Folding a list of assignments `d[k] = v` (in program order) over an
initial map. -/
def dictFold {κ ν : Type} [DecidableEq κ] (l : List (κ × ν)) (m : κ → Option ν) : κ → Option ν :=
  l.foldl dictUpd m

/-- A Python dict built by a loop of assignments `d[k] = v`, as the fold
of pointwise updates over the list of (key, value) assignments in
program order, starting from the empty dict. -/
def dictOf {κ ν : Type} [DecidableEq κ] (l : List (κ × ν)) : κ → Option ν :=
  dictFold l (fun _ => none)

theorem dictFold_nil {κ ν : Type} [DecidableEq κ] (m : κ → Option ν) :
    dictFold [] m = m := rfl

theorem dictFold_cons {κ ν : Type} [DecidableEq κ] (kv : κ × ν) (t : List (κ × ν))
    (m : κ → Option ν) : dictFold (kv :: t) m = dictFold t (dictUpd m kv) := rfl

/-- A key assigned by no entry of the assignment list keeps its initial
value. -/
theorem dictFold_skip {κ ν : Type} [DecidableEq κ] (l : List (κ × ν)) (m : κ → Option ν)
    (k : κ) (h : ∀ kv ∈ l, kv.1 ≠ k) : dictFold l m k = m k := by
  induction l generalizing m with
  | nil => rfl
  | cons kv t ih =>
    rw [dictFold_cons, ih (dictUpd m kv) (fun kv' h' => h kv' (List.mem_cons_of_mem _ h'))]
    have hne : kv.1 ≠ k := h kv (List.mem_cons_self kv t)
    simp only [dictUpd]
    exact if_neg (fun hk => hne hk.symm)

/-- A key assigned exactly once by the assignment list ends up holding
the assigned value. -/
theorem dictFold_unique {κ ν : Type} [DecidableEq κ] (l : List (κ × ν)) (m : κ → Option ν)
    (k : κ) (v : ν) (hmem : (k, v) ∈ l)
    (huniq : ∀ kv ∈ l, kv.1 = k → kv = (k, v)) : dictFold l m k = some v := by
  induction l generalizing m with
  | nil => cases hmem
  | cons kv t ih =>
    rw [dictFold_cons]
    by_cases hmem' : (k, v) ∈ t
    · exact ih (dictUpd m kv) hmem' (fun kv' h' => huniq kv' (List.mem_cons_of_mem _ h'))
    · have hkv : kv = (k, v) := by
        rcases List.mem_cons.mp hmem with h | h
        · exact h.symm
        · exact absurd h hmem'
      subst hkv
      rw [dictFold_skip]
      · simp [dictUpd]
      · intro kv' h' hk
        exact hmem' ((huniq kv' (List.mem_cons_of_mem _ h') hk) ▸ h')

/-- Lookup of a key assigned exactly once. -/
theorem dictOf_unique {κ ν : Type} [DecidableEq κ] (l : List (κ × ν)) (k : κ) (v : ν)
    (hmem : (k, v) ∈ l) (huniq : ∀ kv ∈ l, kv.1 = k → kv = (k, v)) :
    dictOf l k = some v :=
  dictFold_unique l _ k v hmem huniq

/-- Lookup of a key never assigned: `KeyError` in Python, `none` here. -/
theorem dictOf_skip {κ ν : Type} [DecidableEq κ] (l : List (κ × ν)) (k : κ)
    (h : ∀ kv ∈ l, kv.1 ≠ k) : dictOf l k = none :=
  dictFold_skip l _ k h

/-- The fixed 64-entry hardware table from
`mwa_build_lfiles/antenna_mapping.h`: `pfb_mapper[i]` is the PFB input
index whose output index is `i` within one 64-input bank
(`mwa_corr_fits.py`, `input_output_mapping`). -/
def pfb_mapper : List Nat :=
  [0, 16, 32, 48, 1, 17, 33, 49, 2, 18, 34, 50, 3, 19, 35, 51,
   4, 20, 36, 52, 5, 21, 37, 53, 6, 22, 38, 54, 7, 23, 39, 55,
   8, 24, 40, 56, 9, 25, 41, 57, 10, 26, 42, 58, 11, 27, 43, 59,
   12, 28, 44, 60, 13, 29, 45, 61, 14, 30, 46, 62, 15, 31, 47, 63]

/-- The assignments performed by `input_output_mapping`'s double loop,
in program order: `for p in range(4): for i in range(64):
d[pfb_mapper[i] + p*64] = p*64 + i`. -/
def pfbAssignments : List (Nat × Nat) :=
  (List.range 4).flatMap
    (fun p => (List.range 64).map (fun i => (pfb_mapper.getD i 0 + p * 64, p * 64 + i)))

/-- Function `input_output_mapping()`: the dict from PFB input indices to PFB
output indices. -/
def input_output_mapping : Nat → Option Nat := dictOf pfbAssignments

theorem pfb_mapper_lt : ∀ i, i < 64 → pfb_mapper.getD i 0 < 64 := by decide

set_option maxRecDepth 8192 in
theorem pfb_mapper_cover : ∀ r, r < 64 → ∃ i, i < 64 ∧ pfb_mapper.getD i 0 = r := by decide

theorem pfb_mapper_inj :
    ∀ i, i < 64 → ∀ j, j < 64 → pfb_mapper.getD i 0 = pfb_mapper.getD j 0 → i = j := by decide

theorem mem_pfbAssignments {kv : Nat × Nat} :
    kv ∈ pfbAssignments ↔
      ∃ p, p < 4 ∧ ∃ i, i < 64 ∧ kv = (pfb_mapper.getD i 0 + p * 64, p * 64 + i) := by
  simp only [pfbAssignments, List.mem_flatMap, List.mem_map, List.mem_range]
  constructor
  · rintro ⟨p, hp, i, hi, rfl⟩
    exact ⟨p, hp, i, hi, rfl⟩
  · rintro ⟨p, hp, i, hi, rfl⟩
    exact ⟨p, hp, i, hi, rfl⟩

/-- The defining equation of the PFB mapping dict. -/
theorem input_output_mapping_eq (p i : Nat) (hp : p < 4) (hi : i < 64) :
    input_output_mapping (pfb_mapper.getD i 0 + p * 64) = some (p * 64 + i) := by
  apply dictOf_unique
  · exact mem_pfbAssignments.mpr ⟨p, hp, i, hi, rfl⟩
  · rintro ⟨k, v⟩ hkv hk
    obtain ⟨p', hp', i', hi', heq⟩ := mem_pfbAssignments.mp hkv
    obtain ⟨hk', hv'⟩ := Prod.mk.injEq .. ▸ heq
    subst hk'
    subst hv'
    simp only at hk
    have hb1 : pfb_mapper.getD i' 0 < 64 := pfb_mapper_lt i' hi'
    have hb2 : pfb_mapper.getD i 0 < 64 := pfb_mapper_lt i hi
    have hpp : p' = p := by omega
    subst hpp
    have hii : i' = i := pfb_mapper_inj i' hi' i hi (by omega)
    subst hii
    rfl

/-- Every PFB output value determines its input key. -/
theorem input_output_mapping_invert (k v : Nat) (hk : k < 256)
    (h : input_output_mapping k = some v) :
    k = pfb_mapper.getD (v % 64) 0 + 64 * (v / 64) ∧ v < 256 := by
  obtain ⟨i, hi, hgd⟩ := pfb_mapper_cover (k % 64) (Nat.mod_lt k (by omega))
  have hp : k / 64 < 4 := by omega
  have hkey : k = pfb_mapper.getD i 0 + (k / 64) * 64 := by omega
  have hmap := input_output_mapping_eq (k / 64) i hp hi
  rw [← hkey] at hmap
  rw [h] at hmap
  have hv : k / 64 * 64 + i = v := by
    injection hmap with hv0
    exact hv0.symm
  subst hv
  have hdiv : ((k / 64) * 64 + i) / 64 = k / 64 := by omega
  have hmod : ((k / 64) * 64 + i) % 64 = i := by omega
  rw [hdiv, hmod, hgd]
  omega

/-- Claim C4: `input_output_mapping` is a pure function of the fixed
64-entry hardware table and a total bijection on 0..255: it is defined
on every input below 256 with value below 256, injective there,
surjective onto 0..255, and satisfies
`mapping[pfb_mapper[i] + 64*p] = 64*p + i` for every `p < 4`, `i < 64`. -/
theorem mwa_c4 :
    (∀ k, k < 256 → ∃ v, input_output_mapping k = some v ∧ v < 256) ∧
    (∀ k k' v, k < 256 → k' < 256 → input_output_mapping k = some v →
      input_output_mapping k' = some v → k = k') ∧
    (∀ v, v < 256 → ∃ k, k < 256 ∧ input_output_mapping k = some v) ∧
    (∀ p i, p < 4 → i < 64 →
      input_output_mapping (pfb_mapper.getD i 0 + 64 * p) = some (64 * p + i)) := by
  refine ⟨?_, ?_, ?_, ?_⟩
  · intro k hk
    obtain ⟨i, hi, hgd⟩ := pfb_mapper_cover (k % 64) (Nat.mod_lt k (by omega))
    have hp : k / 64 < 4 := by omega
    have hkey : k = pfb_mapper.getD i 0 + (k / 64) * 64 := by omega
    refine ⟨(k / 64) * 64 + i, ?_, by omega⟩
    have hthis := input_output_mapping_eq (k / 64) i hp hi
    rw [← hkey] at hthis
    exact hthis
  · intro k k' v hk hk' h h'
    have h1 := input_output_mapping_invert k v hk h
    have h2 := input_output_mapping_invert k' v hk' h'
    rw [h1.1, h2.1]
  · intro v hv
    have hp : v / 64 < 4 := by omega
    have hi : v % 64 < 64 := by omega
    refine ⟨pfb_mapper.getD (v % 64) 0 + (v / 64) * 64, ?_, ?_⟩
    · have := pfb_mapper_lt (v % 64) hi
      omega
    · rw [input_output_mapping_eq (v / 64) (v % 64) hp hi]
      congr 1
      omega
  · intro p i hp hi
    have := input_output_mapping_eq p i hp hi
    rw [Nat.mul_comm 64 p]
    exact this

/-- Witness for C4 at concrete inputs. -/
theorem mwa_c4_witness :
    (∃ v, input_output_mapping 0 = some v ∧ v < 256) ∧
    input_output_mapping (pfb_mapper.getD 3 0 + 64 * 2) = some (64 * 2 + 3) :=
  ⟨mwa_c4.1 0 (by decide), mwa_c4.2.2.2 2 3 (by decide) (by decide)⟩

/-- Baseline-triangle index `128*ant1 - ant1*(ant1+1)/2 + ant2`
(`read_mwa_corr_fits`, reindexing loop). In Python the division is a
float division, but `ant1*(ant1+1)` is even so `int(...)` of the result
equals this natural number. -/
def blsInd (ant1 ant2 : Nat) : Nat := 128 * ant1 - ant1 * (ant1 + 1) / 2 + ant2

theorem blsInd_two (a b : Nat) (ha : a ≤ 127) :
    2 * blsInd a b = a * (255 - a) + 2 * b := by
  have h1 : a * (a + 1) / 2 * 2 = a * (a + 1) :=
    Nat.div_mul_cancel (Nat.even_mul_succ_self a).two_dvd
  have h2 : a * (255 - a) + a * (a + 1) = 256 * a := by
    rw [← Nat.mul_add]
    have h3 : 255 - a + (a + 1) = 256 := by omega
    rw [h3]
    ring
  unfold blsInd
  omega

theorem blsInd_gstep (a : Nat) (ha : a ≤ 126) :
    (a + 1) * (255 - (a + 1)) + 2 * (a + 1) = a * (255 - a) + 256 := by
  have h1 : 255 - (a + 1) = 254 - a := by omega
  rw [h1]
  zify [show a ≤ 254 from by omega, show a ≤ 255 from by omega]
  ring

theorem blsInd_row_lt (a a' : Nat) (h : a < a') : a' ≤ 127 →
    a * (255 - a) + 254 < a' * (255 - a') + 2 * a' := by
  have h' : a + 1 ≤ a' := h
  induction a', h' using Nat.le_induction with
  | base =>
    intro ha'
    have hg := blsInd_gstep a (by omega)
    omega
  | succ n hn IH =>
    intro ha'
    have hg := blsInd_gstep n (by omega)
    have hIH := IH (by omega)
    omega

/-- The baseline-triangle index is injective on valid antenna pairs. -/
theorem blsInd_inj (a b a' b' : Nat) (hab : a ≤ b) (hb : b ≤ 127)
    (hab' : a' ≤ b') (hb' : b' ≤ 127) (h : blsInd a b = blsInd a' b') :
    a = a' ∧ b = b' := by
  have h2 : 2 * blsInd a b = 2 * blsInd a' b' := by omega
  rw [blsInd_two a b (by omega), blsInd_two a' b' (by omega)] at h2
  have haa : a = a' := by
    by_contra hne
    rcases Nat.lt_or_ge a a' with hlt | hge
    · have hrow := blsInd_row_lt a a' hlt (by omega)
      omega
    · have hlt : a' < a := by omega
      have hrow := blsInd_row_lt a' a (by omega) (by omega)
      omega
  subst haa
  exact ⟨rfl, by omega⟩

/-- Polarization-pair index `2*p1 + p2` (order [yy, yx, xy, xx]). -/
def polInd (p1 p2 : Nat) : Nat := 2 * p1 + p2

/-- The quadruple loop enumeration of the reindexer
(`for ant1 in range(128): for ant2 in range(ant1, 128):
for p1 in range(2): for p2 in range(2)`), in program order. -/
def combos : List (Nat × Nat × Nat × Nat) :=
  (List.range 128).flatMap (fun ant1 =>
    (List.range' ant1 (128 - ant1)).flatMap (fun ant2 =>
      (List.range 2).flatMap (fun p1 =>
        (List.range 2).map (fun p2 => (ant1, ant2, p1, p2)))))

theorem mem_combos {c : Nat × Nat × Nat × Nat} :
    c ∈ combos ↔ c.1 ≤ c.2.1 ∧ c.2.1 < 128 ∧ c.2.2.1 < 2 ∧ c.2.2.2 < 2 := by
  obtain ⟨a1, a2, p1, p2⟩ := c
  simp only [combos, List.mem_flatMap, List.mem_map, List.mem_range, List.mem_range'_1,
    Prod.mk.injEq]
  constructor
  · rintro ⟨x1, hx1, x2, ⟨hx2a, hx2b⟩, x3, hx3, x4, hx4, rfl, rfl, rfl, rfl⟩
    refine ⟨hx2a, by omega, hx3, hx4⟩
  · rintro ⟨h1, h2, h3, h4⟩
    exact ⟨a1, by omega, a2, ⟨h1, by omega⟩, p1, h3, p2, h4, rfl, rfl, rfl, rfl⟩

/-- One array cell write `arr[cell] = v`. -/
def arrUpd {α : Type} (m : Nat × Nat → α) (kv : (Nat × Nat) × α) : Nat × Nat → α :=
  fun x => if x = kv.1 then kv.2 else m x

/-- A sequence of array cell writes in program order. -/
def arrFold {α : Type} (l : List ((Nat × Nat) × α)) (m : Nat × Nat → α) : Nat × Nat → α :=
  l.foldl arrUpd m

theorem arrFold_cons {α : Type} (kv : (Nat × Nat) × α) (t : List ((Nat × Nat) × α))
    (m : Nat × Nat → α) : arrFold (kv :: t) m = arrFold t (arrUpd m kv) := rfl

theorem arrFold_skip {α : Type} (l : List ((Nat × Nat) × α)) (m : Nat × Nat → α)
    (k : Nat × Nat) (h : ∀ kv ∈ l, kv.1 ≠ k) : arrFold l m k = m k := by
  induction l generalizing m with
  | nil => rfl
  | cons kv t ih =>
    rw [arrFold_cons, ih (arrUpd m kv) (fun kv' h' => h kv' (List.mem_cons_of_mem _ h'))]
    have hne : kv.1 ≠ k := h kv (List.mem_cons_self kv t)
    simp only [arrUpd]
    exact if_neg (fun hk => hne hk.symm)

theorem arrFold_unique {α : Type} (l : List ((Nat × Nat) × α)) (m : Nat × Nat → α)
    (k : Nat × Nat) (v : α) (hmem : (k, v) ∈ l)
    (huniq : ∀ kv ∈ l, kv.1 = k → kv = (k, v)) : arrFold l m k = v := by
  induction l generalizing m with
  | nil => cases hmem
  | cons kv t ih =>
    rw [arrFold_cons]
    by_cases hmem' : (k, v) ∈ t
    · exact ih (arrUpd m kv) hmem' (fun kv' h' => huniq kv' (List.mem_cons_of_mem _ h'))
    · have hkv : kv = (k, v) := by
        rcases List.mem_cons.mp hmem with h | h
        · exact h.symm
        · exact absurd h hmem'
      subst hkv
      rw [arrFold_skip]
      · simp [arrUpd]
      · intro kv' h' hk
        exact hmem' ((huniq kv' (List.mem_cons_of_mem _ h') hk) ▸ h')

/-- Models `np.conj` on a complex value modelled as (re, im). -/
def conjC (z : Int × Int) : Int × Int := (z.1, -z.2)

/-- The raw staging-cube index chosen by the reindexing loop body for a
combination `c = (ant1, ant2, p1, p2)`: look up PFB input indices via
`antIn`, map to PFB output indices via `pfb`, decompose into output
antenna (`/ 2`) and output polarization (`% 2`), then use the swapped
triangle formula when `out_ant1 < out_ant2`, else the unswapped one
(`read_mwa_corr_fits` lines 391-410). -/
def reindexIdx (antIn : Nat → Nat → Nat) (pfb : Nat → Nat) (c : Nat × Nat × Nat × Nat) : Nat :=
  if pfb (antIn c.1 c.2.2.1) / 2 < pfb (antIn c.2.1 c.2.2.2) / 2 then
    2 * (pfb (antIn c.2.1 c.2.2.2) / 2) * (pfb (antIn c.2.1 c.2.2.2) / 2 + 1)
      + 4 * (pfb (antIn c.1 c.2.2.1) / 2) + 2 * (pfb (antIn c.2.1 c.2.2.2) % 2)
      + pfb (antIn c.1 c.2.2.1) % 2
  else
    2 * (pfb (antIn c.1 c.2.2.1) / 2) * (pfb (antIn c.1 c.2.2.1) / 2 + 1)
      + 4 * (pfb (antIn c.2.1 c.2.2.2) / 2) + 2 * (pfb (antIn c.1 c.2.2.1) % 2)
      + pfb (antIn c.2.1 c.2.2.2) % 2

/-- The value the reindexing loop body writes into the final data array
for combination `c`, given the staging-cube slice `dump` at a fixed
(time, frequency): complex-conjugated when the raw antenna order is
swapped, unconjugated otherwise. -/
def reindexVal (antIn : Nat → Nat → Nat) (pfb : Nat → Nat) (dump : Nat → Int × Int)
    (c : Nat × Nat × Nat × Nat) : Int × Int :=
  if pfb (antIn c.1 c.2.2.1) / 2 < pfb (antIn c.2.1 c.2.2.2) / 2 then
    conjC (dump (reindexIdx antIn pfb c))
  else dump (reindexIdx antIn pfb c)

/-- The cell writes performed by the reindexing double loop, addressed
by (baseline index, polarization index), for a per-combination value. -/
def reindexWrites {α : Type} (val : Nat × Nat × Nat × Nat → α) : List ((Nat × Nat) × α) :=
  combos.map (fun c => ((blsInd c.1 c.2.1, polInd c.2.2.1 c.2.2.2), val c))

/-- The final (baseline, polarization)-indexed array after the
reindexing double loop runs over an array initialized to `init`. -/
def reindexArr {α : Type} (val : Nat × Nat × Nat × Nat → α) (init : Nat × Nat → α) :
    Nat × Nat → α :=
  arrFold (reindexWrites val) init

theorem reindexArr_at {α : Type} (val : Nat × Nat × Nat × Nat → α) (init : Nat × Nat → α)
    (a1 a2 p1 p2 : Nat) (h1 : a1 ≤ a2) (h2 : a2 < 128) (hp1 : p1 < 2) (hp2 : p2 < 2) :
    reindexArr val init (blsInd a1 a2, polInd p1 p2) = val (a1, a2, p1, p2) := by
  apply arrFold_unique
  · exact List.mem_map.mpr ⟨(a1, a2, p1, p2), mem_combos.mpr ⟨h1, h2, hp1, hp2⟩, rfl⟩
  · rintro ⟨k, v⟩ hkv hk
    obtain ⟨c, hc, heq⟩ := List.mem_map.mp hkv
    obtain ⟨a1', a2', p1', p2'⟩ := c
    have hm := mem_combos.mp hc
    dsimp only at hm
    obtain ⟨hm1, hm2, hm3, hm4⟩ := hm
    simp only [Prod.mk.injEq] at heq
    obtain ⟨hkey, hval⟩ := heq
    subst hkey
    subst hval
    dsimp only at hk
    simp only [Prod.mk.injEq] at hk
    obtain ⟨hbe, hpe⟩ := hk
    obtain ⟨ha1, ha2⟩ := blsInd_inj a1' a2' a1 a2 hm1 (by omega) h1 (by omega) hbe
    subst ha1
    subst ha2
    have hq : p1' = p1 ∧ p2' = p2 := by
      simp only [polInd] at hpe
      omega
    obtain ⟨hq1, hq2⟩ := hq
    subst hq1
    subst hq2
    rfl

/-- Slice of `self.data_array` at a fixed (time, frequency): the result of
the reindexing double loop writing into an initially zero array. -/
def reindexedData (antIn : Nat → Nat → Nat) (pfb : Nat → Nat) (dump : Nat → Int × Int) :
    Nat × Nat → Int × Int :=
  reindexArr (reindexVal antIn pfb dump) (fun _ => (0, 0))

/-- Claim C3: for every antenna pair `ant1 ≤ ant2 < 128` and
polarizations `p1, p2 < 2`, with output antenna/polarization obtained by
mapping through the PFB input and output indices, the value written at
(baseline_index(ant1,ant2), 2*p1+p2) is the complex conjugate of the
staging value at `2*out_ant2*(out_ant2+1) + 4*out_ant1 + 2*out_p2 + out_p1`
when `out_ant1 < out_ant2`, else the unconjugated staging value at
`2*out_ant1*(out_ant1+1) + 4*out_ant2 + 2*out_p1 + out_p2`. -/
theorem mwa_c3 (antIn : Nat → Nat → Nat) (pfb : Nat → Nat) (dump : Nat → Int × Int)
    (ant1 ant2 p1 p2 : Nat) (h12 : ant1 ≤ ant2) (h2 : ant2 < 128)
    (hp1 : p1 < 2) (hp2 : p2 < 2) :
    reindexedData antIn pfb dump (blsInd ant1 ant2, polInd p1 p2) =
      if pfb (antIn ant1 p1) / 2 < pfb (antIn ant2 p2) / 2 then
        conjC (dump (2 * (pfb (antIn ant2 p2) / 2) * (pfb (antIn ant2 p2) / 2 + 1)
          + 4 * (pfb (antIn ant1 p1) / 2) + 2 * (pfb (antIn ant2 p2) % 2)
          + pfb (antIn ant1 p1) % 2))
      else
        dump (2 * (pfb (antIn ant1 p1) / 2) * (pfb (antIn ant1 p1) / 2 + 1)
          + 4 * (pfb (antIn ant2 p2) / 2) + 2 * (pfb (antIn ant1 p1) % 2)
          + pfb (antIn ant2 p2) % 2) := by
  rw [reindexedData, reindexArr_at _ _ ant1 ant2 p1 p2 h12 h2 hp1 hp2]
  simp only [reindexVal, reindexIdx]
  split_ifs with h
  · rfl
  · rfl

/-- Witness for C3 at a concrete mapping, staging cube and combination. -/
theorem mwa_c3_witness :
    reindexedData (fun a p => 2 * a + p) (fun x => x) (fun j => ((j : Int), (j : Int) + 1))
      (blsInd 0 1, polInd 0 1) = (6, -7) := by
  have h := mwa_c3 (fun a p => 2 * a + p) (fun x => x) (fun j => ((j : Int), (j : Int) + 1))
    0 1 0 1 (by decide) (by decide) (by decide) (by decide)
  simpa using h

/-- The count loop over coarse channels: how many are in group 0-128
(`for i in coarse_chans: if i <= 128: count += 1`). -/
def countLow (l : List Nat) : Nat := (l.filter (fun x => x ≤ 128)).length

theorem countLow_le (l : List Nat) : countLow l ≤ l.length :=
  List.length_filter_le _ _

/-- The assignments of the dict comprehension `file_nums_to_coarse`
(lines 276-278): key `i+1` maps to `coarse_chans[i]` if `i < count`,
else to `coarse_chans[len(coarse_chans) + count - i - 1]`. -/
def coarseAssignments (l : List Nat) : List (Nat × Nat) :=
  (List.range l.length).map (fun i =>
    (i + 1, if i < countLow l then l.getD i 0 else l.getD (l.length + countLow l - i - 1) 0))

/-- The `file_nums_to_coarse` dict: correlator file number (1-based) to
physical coarse-channel number. -/
def file_nums_to_coarse (l : List Nat) : Nat → Option Nat := dictOf (coarseAssignments l)

theorem file_nums_to_coarse_eq (l : List Nat) (k : Nat) (h1 : 1 ≤ k) (h2 : k ≤ l.length) :
    file_nums_to_coarse l k =
      some (if k - 1 < countLow l then l.getD (k - 1) 0
            else l.getD (l.length + countLow l - k) 0) := by
  apply dictOf_unique
  · apply List.mem_map.mpr
    refine ⟨k - 1, List.mem_range.mpr (by omega), ?_⟩
    have hidx : l.length + countLow l - (k - 1) - 1 = l.length + countLow l - k := by omega
    have hkk : k - 1 + 1 = k := by omega
    rw [hidx, hkk]
  · rintro ⟨k', v'⟩ hkv hk
    obtain ⟨i, hi, heq⟩ := List.mem_map.mp hkv
    rw [List.mem_range] at hi
    simp only [Prod.mk.injEq] at heq
    obtain ⟨hk', hv'⟩ := heq
    subst hk'
    subst hv'
    dsimp only at hk
    have hik : i = k - 1 := by omega
    subst hik
    simp only [Prod.mk.injEq]
    refine ⟨by omega, ?_⟩
    have hidx : l.length + countLow l - (k - 1) - 1 = l.length + countLow l - k := by omega
    rw [hidx]

/-- The 0-based position that the fold rule assigns to file number `k`
(used only in proofs; the source inlines it). -/
def foldIdx (n c k : Nat) : Nat := if k - 1 < c then k - 1 else n + c - k

theorem foldIdx_lt (n c k : Nat) (_hc : c ≤ n) (h1 : 1 ≤ k) (h2 : k ≤ n) :
    foldIdx n c k < n := by
  unfold foldIdx
  split <;> omega

theorem foldIdx_inj (n c k k' : Nat) (h1 : 1 ≤ k) (h2 : k ≤ n) (h1' : 1 ≤ k')
    (h2' : k' ≤ n) (h : foldIdx n c k = foldIdx n c k') : k = k' := by
  unfold foldIdx at h
  revert h
  split <;> split <;> omega

theorem foldIdx_surj (n c j : Nat) (_hc : c ≤ n) (hj : j < n) :
    ∃ k, 1 ≤ k ∧ k ≤ n ∧ foldIdx n c k = j := by
  by_cases hjc : j < c
  · refine ⟨j + 1, by omega, by omega, ?_⟩
    unfold foldIdx
    split <;> omega
  · refine ⟨n + c - j, by omega, by omega, ?_⟩
    unfold foldIdx
    split <;> omega

theorem getD_eq_get (l : List Nat) (i : Nat) (h : i < l.length) : l.getD i 0 = l[i] := by
  rw [List.getD_eq_getElem?_getD, List.getElem?_eq_getElem h]
  rfl

theorem getD_mem (l : List Nat) (i : Nat) (h : i < l.length) : l.getD i 0 ∈ l := by
  rw [getD_eq_get l i h]
  exact List.getElem_mem h

theorem getD_inj (l : List Nat) (hnd : l.Nodup) (i j : Nat) (hi : i < l.length)
    (hj : j < l.length) (h : l.getD i 0 = l.getD j 0) : i = j := by
  rw [getD_eq_get l i hi, getD_eq_get l j hj] at h
  have hij := List.Nodup.get_inj_iff hnd (i := ⟨i, hi⟩) (j := ⟨j, hj⟩)
  simp only [List.get_eq_getElem] at hij
  have := hij.mp h
  exact Fin.mk.injEq .. ▸ this

theorem mem_iff_getD (l : List Nat) (x : Nat) :
    x ∈ l ↔ ∃ i, i < l.length ∧ l.getD i 0 = x := by
  rw [List.mem_iff_getElem]
  constructor
  · rintro ⟨i, hi, rfl⟩
    exact ⟨i, hi, getD_eq_get l i hi⟩
  · rintro ⟨i, hi, h⟩
    exact ⟨i, hi, (getD_eq_get l i hi) ▸ h⟩

theorem file_nums_to_coarse_foldIdx (l : List Nat) (k : Nat) (h1 : 1 ≤ k)
    (h2 : k ≤ l.length) :
    file_nums_to_coarse l k = some (l.getD (foldIdx l.length (countLow l) k) 0) := by
  rw [file_nums_to_coarse_eq l k h1 h2, foldIdx]
  rw [apply_ite (fun t => l.getD t 0)]

/-- Claim C5: for a metadata coarse-channel list of distinct channel
numbers, file number `k` (1-based) resolves to `list[k-1]` when
`k-1 < c` (with `c` the number of entries ≤ 128) and to
`list[len + c - k]` otherwise; the map is injective on file numbers
1..N and its image is exactly the set of list entries, so
file → channel → file round-trips. -/
theorem mwa_c5 (l : List Nat) (hnd : l.Nodup) :
    (∀ k, 1 ≤ k → k ≤ l.length →
      file_nums_to_coarse l k =
        some (if k - 1 < countLow l then l.getD (k - 1) 0
              else l.getD (l.length + countLow l - k) 0)) ∧
    (∀ k k', 1 ≤ k → k ≤ l.length → 1 ≤ k' → k' ≤ l.length →
      file_nums_to_coarse l k = file_nums_to_coarse l k' → k = k') ∧
    (∀ x, x ∈ l ↔ ∃ k, 1 ≤ k ∧ k ≤ l.length ∧ file_nums_to_coarse l k = some x) := by
  refine ⟨fun k h1 h2 => file_nums_to_coarse_eq l k h1 h2, ?_, ?_⟩
  · intro k k' h1 h2 h1' h2' h
    rw [file_nums_to_coarse_foldIdx l k h1 h2, file_nums_to_coarse_foldIdx l k' h1' h2'] at h
    have hv : l.getD (foldIdx l.length (countLow l) k) 0
        = l.getD (foldIdx l.length (countLow l) k') 0 := by
      injection h
    have hi := getD_inj l hnd _ _ (foldIdx_lt _ _ k (countLow_le l) h1 h2)
      (foldIdx_lt _ _ k' (countLow_le l) h1' h2') hv
    exact foldIdx_inj l.length (countLow l) k k' h1 h2 h1' h2' hi
  · intro x
    constructor
    · intro hx
      obtain ⟨i, hi, hgd⟩ := (mem_iff_getD l x).mp hx
      obtain ⟨k, hk1, hk2, hk3⟩ := foldIdx_surj l.length (countLow l) i (countLow_le l) hi
      refine ⟨k, hk1, hk2, ?_⟩
      rw [file_nums_to_coarse_foldIdx l k hk1 hk2, hk3, hgd]
    · rintro ⟨k, hk1, hk2, hk3⟩
      rw [file_nums_to_coarse_foldIdx l k hk1 hk2] at hk3
      have hx : l.getD (foldIdx l.length (countLow l) k) 0 = x := by injection hk3
      rw [← hx]
      exact getD_mem l _ (foldIdx_lt _ _ k (countLow_le l) hk1 hk2)

/-- Witness for C5: the fold rule on the concrete channel list
[127, 128, 129, 130] sends file 3 to channel 130 (high channels are
assigned in descending file order). -/
theorem mwa_c5_witness : file_nums_to_coarse [127, 128, 129, 130] 3 = some 130 := by
  have h := (mwa_c5 [127, 128, 129, 130] (by decide)).1 3 (by decide) (by decide)
  simpa using h

/-- The assignments of the dict comprehension `file_nums_to_index`
(lines 292-293): keys are `i+1` for `i in range(len(included_coarse_chans))`
— 1..#included — not the included file numbers themselves; values are
the fold positions over the included set. -/
def indexAssignments (included : List Nat) : List (Nat × Nat) :=
  (List.range included.length).map (fun i =>
    (i + 1, if i < countLow included then i
            else included.length + countLow included - i - 1))

/-- The `file_nums_to_index` dict, looked up later with the actual file
number parsed from each data file name. -/
def file_nums_to_index (included : List Nat) : Nat → Option Nat :=
  dictOf (indexAssignments included)

/-- Claim C6 fails on the code: with metadata coarse channels
[131, 132, 133] and only the data file numbered 2 submitted, the
included coarse-channel list is [132], but `file_nums_to_index` is
keyed by 1..#included = {1}, so the later lookup of the included file
number 2 is a `KeyError` and the read aborts instead of warning and
assigning the file a frequency-block index. -/
theorem mwa_c6_eval :
    file_nums_to_coarse [131, 132, 133] 2 = some 132 ∧
    file_nums_to_index [132] 2 = none := by
  constructor
  · decide
  · decide

/-- The assignments of the `corr_ants_to_pfb_inputs` dict loop (lines
371-374): `i` runs over the metafits antenna-table order (the local
`antenna_numbers` array, which is not re-sorted), `p` over range(2),
and `d[(antenna_numbers[i], p)] = 2*i + p`. -/
def corrAssignments (antenna_numbers : List Nat) : List ((Nat × Nat) × Nat) :=
  (List.range antenna_numbers.length).flatMap (fun i =>
    (List.range 2).map (fun p => ((antenna_numbers.getD i 0, p), 2 * i + p)))

/-- The `corr_ants_to_pfb_inputs` dict: (antenna number, polarization)
to PFB input index. -/
def corr_ants_to_pfb_inputs (antenna_numbers : List Nat) : Nat × Nat → Option Nat :=
  dictOf (corrAssignments antenna_numbers)

/-- Stated from the claim's words, for comparison: the position of an
antenna in the metadata table sorted into ascending antenna-number
order. -/
def sortedTableIndex (antenna_numbers : List Nat) (a : Nat) : Nat :=
  (antenna_numbers.insertionSort (· ≤ ·)).indexOf a

/-- Claim C2 as stated fails on the code: with metafits antenna order
[5, 3] (not ascending), the dict assigns antenna 5 / polarization 0 the
PFB input index 0 — twice its position in the *unsorted* table — while
the claim's formula `2 * sorted_index + p` gives 2. -/
theorem mwa_c2_counterexample :
    corr_ants_to_pfb_inputs [5, 3] (5, 0) = some 0 ∧
    sortedTableIndex [5, 3] 5 = 1 ∧
    (some 0 : Option Nat) ≠ some (2 * 1 + 0) := by
  refine ⟨by decide, by decide, by decide⟩

theorem mem_corrAssignments (nums : List Nat) {kv : (Nat × Nat) × Nat} :
    kv ∈ corrAssignments nums ↔
      ∃ i, i < nums.length ∧ ∃ p, p < 2 ∧ kv = ((nums.getD i 0, p), 2 * i + p) := by
  simp only [corrAssignments, List.mem_flatMap, List.mem_map, List.mem_range]
  constructor
  · rintro ⟨i, hi, p, hp, rfl⟩
    exact ⟨i, hi, p, hp, rfl⟩
  · rintro ⟨i, hi, p, hp, rfl⟩
    exact ⟨i, hi, p, hp, rfl⟩

/-- Claim C2 amended: for every antenna number in the metadata antenna
table (assumed to list distinct antenna numbers) and every polarization
p in {0,1}, the PFB input index assigned to (antenna_number, p) equals
2 * (position of that antenna in the metadata table's own order, before
any re-sorting) + p. -/
theorem mwa_c2_amended (nums : List Nat) (hnd : nums.Nodup) (i p : Nat)
    (hi : i < nums.length) (hp : p < 2) :
    corr_ants_to_pfb_inputs nums (nums.getD i 0, p) = some (2 * i + p) := by
  apply dictOf_unique
  · exact (mem_corrAssignments nums).mpr ⟨i, hi, p, hp, rfl⟩
  · rintro ⟨k, v⟩ hkv hk
    obtain ⟨i', hi', p', hp', heq⟩ := (mem_corrAssignments nums).mp hkv
    simp only [Prod.mk.injEq] at heq
    obtain ⟨hk1, hk2⟩ := heq
    subst hk1
    subst hk2
    dsimp only at hk
    simp only [Prod.mk.injEq] at hk
    obtain ⟨ha, hpq⟩ := hk
    have hii : i' = i := getD_inj nums hnd i' i hi' hi ha
    subst hii
    subst hpq
    rfl

/-- Witness for the amended C2 at a concrete unsorted table. -/
theorem mwa_c2_witness : corr_ants_to_pfb_inputs [5, 3] (3, 1) = some 3 := by
  have h := mwa_c2_amended [5, 3] (by decide) 1 1 (by decide) (by decide)
  exact h

/-- Line 166, `self.channel_width = float(meta_hdr['FINECHAN'] * 1000)` (Hz),
with FINECHAN in kHz. -/
def channel_width (finechan : ℚ) : ℚ := finechan * 1000

/-- Line 325, `avg_factor = self.channel_width / 10000`. -/
def avg_factor (cw : ℚ) : ℚ := cw / 10000

/-- Line 326, `width = self.channel_width / 1000` (kHz). -/
def widthKHz (cw : ℚ) : ℚ := cw / 1000

/-- Line 327, `offset = (avg_factor - 1) * width / 2.0`. Note the code
multiplies by the averaged width `width`, while its own derivation in
the comment above it multiplies by the 10 kHz fine-channel width. -/
def freqOffset (cw : ℚ) : ℚ := (avg_factor cw - 1) * widthKHz cw / 2

/-- Line 331, `lower_fine_freq = included_coarse_chans[i] * 1280 - 640` (kHz). -/
def lower_fine_freq (chan : ℚ) : ℚ := chan * 1280 - 640

/-- Line 333, `first_center = lower_fine_freq + offset` (kHz). -/
def first_center (cw chan : ℚ) : ℚ := lower_fine_freq chan + freqOffset cw

/-- The `r`-th entry of the coarse block at grid position `i` of
`self.freq_array` (Hz): the arange fill of lines 336-337. -/
def freq_array_val (cw : ℚ) (chans : List ℚ) (i r : Nat) : ℚ :=
  (first_center cw (chans.getD i 0) + r * widthKHz cw) * 1000

/-- Claim C7 fails on the code: with FINECHAN = 40 kHz (averaging
factor 4) and coarse channel 100, the code computes the offset as
`(avg_factor - 1) * width / 2 = (4-1)*40/2 = 60` kHz — though the
derivation in its own comment gives `((avg_factor-1)*10)/2 = 15` kHz —
so the first entry of the block is 127420 kHz, not the claimed
`100*1280 - 640 + 15 = 127375` kHz. -/
theorem mwa_c7_eval :
    freq_array_val (channel_width 40) [100] 0 0 = 127420000 ∧
    ((100 : ℚ) * 1280 - 640 + 15) * 1000 = 127375000 ∧
    (127420000 : ℚ) ≠ 127375000 := by
  refine ⟨?_, by norm_num, by norm_num⟩
  norm_num [freq_array_val, first_center, lower_fine_freq, freqOffset, avg_factor,
    widthKHz, channel_width]

/-- The antenna-pair double loop of the baseline-flag pass (lines
422-426), in program order. -/
def antPairs : List (Nat × Nat) :=
  (List.range 128).flatMap (fun ant1 =>
    (List.range' ant1 (128 - ant1)).map (fun ant2 => (ant1, ant2)))

theorem mem_antPairs {pr : Nat × Nat} : pr ∈ antPairs ↔ pr.1 ≤ pr.2 ∧ pr.2 < 128 := by
  obtain ⟨a1, a2⟩ := pr
  simp only [antPairs, List.mem_flatMap, List.mem_map, List.mem_range, List.mem_range'_1,
    Prod.mk.injEq]
  constructor
  · rintro ⟨x1, hx1, x2, ⟨hx2a, hx2b⟩, rfl, rfl⟩
    exact ⟨hx2a, by omega⟩
  · rintro ⟨h1, h2⟩
    exact ⟨a1, by omega, a2, ⟨h1, by omega⟩, rfl, rfl⟩

/-- Loop body of the baseline-flag pass: flag the triangle index of any
pair touching a flagged antenna. -/
def bflagStep (fl : List Nat) (acc : Nat → Bool) (pr : Nat × Nat) : Nat → Bool :=
  if pr.1 ∈ fl ∨ pr.2 ∈ fl then
    fun b => if b = blsInd pr.1 pr.2 then true else acc b
  else acc

/-- Array `baseline_flags` after the double loop of lines 422-426. -/
def baseline_flags (fl : List Nat) : Nat → Bool :=
  antPairs.foldl (bflagStep fl) (fun _ => false)

theorem bflag_mono (fl : List Nat) (l : List (Nat × Nat)) (acc : Nat → Bool) (b : Nat)
    (h : acc b = true) : (l.foldl (bflagStep fl) acc) b = true := by
  induction l generalizing acc with
  | nil => exact h
  | cons pr t ih =>
    rw [List.foldl_cons]
    apply ih
    unfold bflagStep
    split
    · by_cases hb : b = blsInd pr.1 pr.2
      · simp [hb]
      · simp [hb, h]
    · exact h

theorem bflag_mem (fl : List Nat) (l : List (Nat × Nat)) (acc : Nat → Bool)
    (pr : Nat × Nat) (hmem : pr ∈ l) (hfl : pr.1 ∈ fl ∨ pr.2 ∈ fl) :
    (l.foldl (bflagStep fl) acc) (blsInd pr.1 pr.2) = true := by
  induction l generalizing acc with
  | nil => cases hmem
  | cons q t ih =>
    rw [List.foldl_cons]
    rcases List.mem_cons.mp hmem with h | h
    · subst h
      apply bflag_mono
      unfold bflagStep
      rw [if_pos hfl]
      simp
    · exact ih (bflagStep fl acc q) h

theorem baseline_flags_true (fl : List Nat) (a1 a2 : Nat) (h12 : a1 ≤ a2) (h2 : a2 < 128)
    (hfl : a1 ∈ fl ∨ a2 ∈ fl) : baseline_flags fl (blsInd a1 a2) = true :=
  bflag_mem fl antPairs (fun _ => false) (a1, a2) (mem_antPairs.mpr ⟨h12, h2⟩) hfl

/-- Models the Python expression `baseline_flags is True` of line 428:
an identity comparison between a numpy array object and the singleton
`True`, which is always False for an array. -/
def baselineFlagsIdentityTest : Bool := false

/-- Models `np.where` applied to a scalar condition: an empty index list when
the condition is False, a single index when True. -/
def numpyWhereScalar (b : Bool) : List Nat := if b then [0] else []

/-- Line 428, `self.flag_array[:, np.where(baseline_flags is True), :, :]
= True`: the selected baseline set is `np.where` of the scalar identity
test, which is empty, so the assignment touches no cell. The computed
`baseline_flags` argument is bound but never read, exactly as in the
source line. -/
def applyBaselineFlags (flags : Nat × Nat → Bool) (_bflags : Nat → Bool) :
    Nat × Nat → Bool :=
  fun cell => if cell.1 ∈ numpyWhereScalar baselineFlagsIdentityTest then true else flags cell

/-- Claim C1 fails on the code: with antenna 0 flagged, the loop of
lines 422-426 does record baseline (0,1) as touching a flagged antenna,
but line 428 selects baselines with `np.where(baseline_flags is True)`
— an object-identity test that is always False — so no cell is forced
True: a cell of baseline (0,1) whose per-cell scatter flag was False
stays False in the final flag array. -/
theorem mwa_c1_eval :
    baseline_flags [0] (blsInd 0 1) = true ∧
    applyBaselineFlags (fun _ => false) (baseline_flags [0]) (blsInd 0 1, 0) = false := by
  constructor
  · exact baseline_flags_true [0] 0 1 (by decide) (by decide) (Or.inl (by decide))
  · rfl

/-- One record scattered by the per-file loop of lines 345-361: the
matched time-grid row, the file's frequency-block start
(`file_nums_to_index[file_num] * num_fine_chans`), and the
de-interleaved complex payload indexed by (absolute frequency row,
baseline-polarization column). -/
structure DataRec where
  t : Nat
  fstart : Nat
  payload : Nat → Nat → Int × Int

/-- Loop body writing one record's block into `data_dump`. -/
def scatterDataStep (nfc : Nat) (acc : Nat → Nat → Nat → Int × Int) (r : DataRec) :
    Nat → Nat → Nat → Int × Int :=
  fun t f j =>
    if t = r.t ∧ r.fstart ≤ f ∧ f < r.fstart + nfc then r.payload f j else acc t f j

/-- Array `data_dump` after all records are scattered; cells never touched
stay 0 (the array is allocated with `np.zeros`). -/
def scatterData (nfc : Nat) (recs : List DataRec) : Nat → Nat → Nat → Int × Int :=
  recs.foldl (scatterDataStep nfc) (fun _ _ _ => (0, 0))

/-- Loop body clearing one record's block in `flag_dump`. -/
def scatterFlagStep (nfc : Nat) (acc : Nat → Nat → Nat → Bool) (r : DataRec) :
    Nat → Nat → Nat → Bool :=
  fun t f j =>
    if t = r.t ∧ r.fstart ≤ f ∧ f < r.fstart + nfc then false else acc t f j

/-- Array `flag_dump` after all records are scattered: allocated all-True
(`np.full(..., True)`), set False wherever a record lands. -/
def scatterFlag (nfc : Nat) (recs : List DataRec) : Nat → Nat → Nat → Bool :=
  recs.foldl (scatterFlagStep nfc) (fun _ _ _ => true)

theorem scatterData_skip (nfc : Nat) (recs : List DataRec) (t f : Nat)
    (h : ∀ r ∈ recs, ¬(t = r.t ∧ r.fstart ≤ f ∧ f < r.fstart + nfc)) (j : Nat) :
    scatterData nfc recs t f j = (0, 0) := by
  unfold scatterData
  generalize hinit : (fun _ _ _ => ((0 : Int), (0 : Int))) = init
  have hval : init t f j = (0, 0) := by rw [← hinit]
  clear hinit
  induction recs generalizing init with
  | nil => exact hval
  | cons r rest ih =>
    rw [List.foldl_cons]
    apply ih (fun r' h' => h r' (List.mem_cons_of_mem _ h'))
    unfold scatterDataStep
    rw [if_neg (h r (List.mem_cons_self r rest))]
    exact hval

theorem scatterFlag_skip (nfc : Nat) (recs : List DataRec) (t f : Nat)
    (h : ∀ r ∈ recs, ¬(t = r.t ∧ r.fstart ≤ f ∧ f < r.fstart + nfc)) (j : Nat) :
    scatterFlag nfc recs t f j = true := by
  unfold scatterFlag
  generalize hinit : (fun _ _ _ => true) = init
  have hval : init t f j = true := by rw [← hinit]
  clear hinit
  induction recs generalizing init with
  | nil => exact hval
  | cons r rest ih =>
    rw [List.foldl_cons]
    apply ih (fun r' h' => h r' (List.mem_cons_of_mem _ h'))
    unfold scatterFlagStep
    rw [if_neg (h r (List.mem_cons_self r rest))]
    exact hval

/-- The flag-array slice at a fixed (time, frequency) after the
reindexing loop copies `flag_dump[:, :, data_index]` (line 412),
indexed by (baseline, polarization). -/
def reindexedFlag (antIn : Nat → Nat → Nat) (pfb : Nat → Nat) (nfc : Nat)
    (recs : List DataRec) (t f : Nat) : Nat × Nat → Bool :=
  reindexArr (fun c => scatterFlag nfc recs t f (reindexIdx antIn pfb c)) (fun _ => true)

/-- The data-array slice at a fixed (time, frequency) after the
reindexing loop (lines 403-410). -/
def finalData (antIn : Nat → Nat → Nat) (pfb : Nat → Nat) (nfc : Nat)
    (recs : List DataRec) (t f : Nat) : Nat × Nat → Int × Int :=
  reindexArr (reindexVal antIn pfb (scatterData nfc recs t f)) (fun _ => (0, 0))

/-- Line 419, `self.nsample_array = np.where(self.flag_array, nsample_array, 1)`
with `nsample_array` all-zero (line 419): 1 exactly where the reindexed
flag is False. -/
def nsample (antIn : Nat → Nat → Nat) (pfb : Nat → Nat) (nfc : Nat)
    (recs : List DataRec) (t f : Nat) (cell : Nat × Nat) : Nat :=
  if reindexedFlag antIn pfb nfc recs t f cell then 0 else 1

/-- The final flag array: the reindexed flags followed by the
baseline-flag pass of line 428 (which selects no cells). -/
def finalFlag (antIn : Nat → Nat → Nat) (pfb : Nat → Nat) (nfc : Nat)
    (recs : List DataRec) (fl : List Nat) (t f : Nat) : Nat × Nat → Bool :=
  applyBaselineFlags (reindexedFlag antIn pfb nfc recs t f) (baseline_flags fl)

theorem applyBaselineFlags_eq (flags : Nat × Nat → Bool) (bf : Nat → Bool)
    (cell : Nat × Nat) : applyBaselineFlags flags bf cell = flags cell := by
  simp [applyBaselineFlags, numpyWhereScalar, baselineFlagsIdentityTest]

theorem reindexVal_zero (antIn : Nat → Nat → Nat) (pfb : Nat → Nat)
    (dump : Nat → Int × Int) (c : Nat × Nat × Nat × Nat)
    (h : ∀ j, dump j = (0, 0)) : reindexVal antIn pfb dump c = (0, 0) := by
  unfold reindexVal
  split
  · rw [h]
    rfl
  · exact h _

/-- Claim C8: every (baseline, polarization) cell at a (time, frequency)
slot covered by no data-file record keeps flag True, data 0 and nsample
0; and nsample is 1 exactly where the final flag is False. -/
theorem mwa_c8 (antIn : Nat → Nat → Nat) (pfb : Nat → Nat) (nfc : Nat)
    (recs : List DataRec) (fl : List Nat) (t f a1 a2 p1 p2 : Nat)
    (h12 : a1 ≤ a2) (h2 : a2 < 128) (hp1 : p1 < 2) (hp2 : p2 < 2)
    (hmiss : ∀ r ∈ recs, ¬(t = r.t ∧ r.fstart ≤ f ∧ f < r.fstart + nfc)) :
    finalFlag antIn pfb nfc recs fl t f (blsInd a1 a2, polInd p1 p2) = true ∧
    finalData antIn pfb nfc recs t f (blsInd a1 a2, polInd p1 p2) = (0, 0) ∧
    nsample antIn pfb nfc recs t f (blsInd a1 a2, polInd p1 p2) = 0 ∧
    (∀ t' f' cell, nsample antIn pfb nfc recs t' f' cell = 1 ↔
      finalFlag antIn pfb nfc recs fl t' f' cell = false) := by
  have hflag : reindexedFlag antIn pfb nfc recs t f (blsInd a1 a2, polInd p1 p2) = true := by
    rw [reindexedFlag, reindexArr_at _ _ a1 a2 p1 p2 h12 h2 hp1 hp2]
    exact scatterFlag_skip nfc recs t f hmiss _
  refine ⟨?_, ?_, ?_, ?_⟩
  · rw [finalFlag, applyBaselineFlags_eq]
    exact hflag
  · rw [finalData, reindexArr_at _ _ a1 a2 p1 p2 h12 h2 hp1 hp2]
    exact reindexVal_zero antIn pfb _ _ (scatterData_skip nfc recs t f hmiss)
  · rw [nsample, hflag]
    rfl
  · intro t' f' cell
    rw [nsample, finalFlag, applyBaselineFlags_eq]
    by_cases hc : reindexedFlag antIn pfb nfc recs t' f' cell = true
    · rw [hc]
      simp
    · rw [Bool.not_eq_true] at hc
      rw [hc]
      simp

/-- Witness for C8: one record at time row 0, frequency block [0, 1);
the cell at time row 1 is untouched. -/
theorem mwa_c8_witness :
    finalFlag (fun a p => 2 * a + p) (fun x => x) 1 [⟨0, 0, fun _ _ => (7, 7)⟩] [] 1 0
      (blsInd 0 1, polInd 0 0) = true ∧
    finalData (fun a p => 2 * a + p) (fun x => x) 1 [⟨0, 0, fun _ _ => (7, 7)⟩] 1 0
      (blsInd 0 1, polInd 0 0) = (0, 0) ∧
    nsample (fun a p => 2 * a + p) (fun x => x) 1 [⟨0, 0, fun _ _ => (7, 7)⟩] 1 0
      (blsInd 0 1, polInd 0 0) = 0 := by
  have h := mwa_c8 (fun a p => 2 * a + p) (fun x => x) 1 [⟨0, 0, fun _ _ => (7, 7)⟩] [] 1 0
    0 1 0 0 (by decide) (by decide) (by decide) (by decide) ?_
  · exact ⟨h.1, h.2.1, h.2.2.1⟩
  · intro r hr
    rw [List.mem_singleton] at hr
    subst hr
    simp

/-- The fine-channel-count update of lines 98-107, run per data file
while scanning headers: with `NAXIS2` present, a count `c` sets
`num_fine_chans` when it is still 0, and a value differing from the
current nonzero count raises ValueError; with `NAXIS2` absent the code
sets `num_fine_chans = 1`. -/
def updFineChans (n : Nat) (naxis2 : Option Nat) : Except String Nat :=
  match naxis2 with
  | some c =>
      if n = 0 then Except.ok c
      else if n ≠ c then
        Except.error "files submitted have different fine channel widths"
      else Except.ok n
  | none => Except.ok 1

/-- The fine-channel consistency scan over the data files' reported
`NAXIS2` values, in submission order, starting from 0 (unset). -/
def scanFineChans (counts : List (Option Nat)) : Except String Nat :=
  counts.foldlM updFineChans 0

/-- Claim C9 as stated fails on the code: two data files reporting the
differing fine-channel counts 0 and 5 do not make the read fail — the
code uses 0 as its "not yet set" sentinel, so the first report is
absorbed — and the scan returns 5. -/
theorem mwa_c9_counterexample :
    scanFineChans [some 0, some 5] = Except.ok 5 ∧ (0 : Nat) ≠ 5 :=
  ⟨rfl, by decide⟩

theorem updFineChans_self (c : Nat) : updFineChans c (some c) = Except.ok c := by
  simp [updFineChans]

theorem scanFineChans_agree_aux (c : Nat) (l : List Nat)
    (h : ∀ x ∈ l, x = c) : (l.map some).foldlM updFineChans c = Except.ok c := by
  induction l with
  | nil => rfl
  | cons x t ih =>
    rw [List.map_cons, List.foldlM_cons, h x (List.mem_cons_self x t), updFineChans_self]
    exact ih (fun x h' => h x (List.mem_cons_of_mem _ h'))

theorem scanFineChans_zeros (l : List Nat) (h : ∀ x ∈ l, x = 0) :
    (l.map some).foldlM updFineChans 0 = Except.ok 0 :=
  scanFineChans_agree_aux 0 l h

theorem scanFineChans_err_aux (a : Nat) (ha : a ≠ 0) (l : List Nat)
    (h : ∃ b ∈ l, b ≠ a) :
    ∃ e, (l.map some).foldlM updFineChans a = Except.error e := by
  induction l with
  | nil =>
    obtain ⟨b, hb, _⟩ := h
    cases hb
  | cons x t ih =>
    rw [List.map_cons, List.foldlM_cons]
    by_cases hx : x = a
    · subst hx
      rw [updFineChans_self]
      apply ih
      obtain ⟨b, hb, hbn⟩ := h
      rcases List.mem_cons.mp hb with hbx | hbt
      · exact absurd hbx hbn
      · exact ⟨b, hbt, hbn⟩
    · refine ⟨"files submitted have different fine channel widths", ?_⟩
      have hstep : updFineChans a (some x) =
          Except.error "files submitted have different fine channel widths" := by
        have hax : a ≠ x := fun hax => hx hax.symm
        simp [updFineChans, ha, hax]
      rw [hstep]
      rfl

/-- Claim C9 amended: if any data file reports a fine-channel count
that differs from the first nonzero count reported so far, the read
fails with ValueError (counts of 0 reported before any nonzero count
are absorbed as "unset" and raise nothing); if all data files report
the same count, the scan succeeds and that shared count is used. -/
theorem mwa_c9_amended :
    (∀ (pre : List Nat) (a : Nat) (post : List Nat),
      (∀ x ∈ pre, x = 0) → a ≠ 0 → (∃ b ∈ post, b ≠ a) →
      ∃ e, scanFineChans (pre.map some ++ some a :: post.map some) = Except.error e) ∧
    (∀ (l : List Nat) (c : Nat), l ≠ [] → (∀ x ∈ l, x = c) →
      scanFineChans (l.map some) = Except.ok c) := by
  constructor
  · intro pre a post hpre ha hpost
    unfold scanFineChans
    rw [List.foldlM_append, scanFineChans_zeros pre hpre]
    obtain ⟨e, he⟩ := scanFineChans_err_aux a ha post hpost
    refine ⟨e, ?_⟩
    show (some a :: post.map some).foldlM updFineChans 0 = Except.error e
    rw [List.foldlM_cons]
    have hstep : updFineChans 0 (some a) = Except.ok a := by
      simp [updFineChans]
    rw [hstep]
    exact he
  · intro l c hne h
    match l, hne with
    | x :: t, _ =>
      unfold scanFineChans
      rw [List.map_cons, List.foldlM_cons]
      have hx := h x (List.mem_cons_self x t)
      subst hx
      have hstep : updFineChans 0 (some x) = Except.ok x := by
        simp [updFineChans]
      rw [hstep]
      exact scanFineChans_agree_aux x t (fun y hy => h y (List.mem_cons_of_mem _ hy))

/-- Witness for the amended C9: [0, 4, 7] errors (4 vs 7), [3, 3]
returns the shared count 3. -/
theorem mwa_c9_witness :
    (∃ e, scanFineChans ([0].map some ++ some 4 :: [7].map some) = Except.error e) ∧
    scanFineChans ([3, 3].map some) = Except.ok 3 := by
  constructor
  · exact mwa_c9_amended.1 [0] 4 [7] (by decide) (by decide)
      ⟨7, List.mem_singleton.mpr rfl, by decide⟩
  · exact mwa_c9_amended.2 [3, 3] 3 (by decide) (by decide)

/-- Python's `str.lower()` on a filename, per character. Filenames are
modelled as character lists, on which the kernel can compute; `String`
itself would do no better, since Python strings are byte sequences. -/
def lowerName (s : List Char) : List Char := s.map Char.toLower

/-- Python's `str.endswith(suffix)`. -/
def nameEndsWith (s suffix : List Char) : Bool := List.isSuffixOf suffix s

/-- The four filename-suffix classes of the loop, lines 74, 82, 115. -/
def suffixMetafits : List Char := ".metafits".toList

def suffixData00 : List Char := "00.fits".toList

def suffixData01 : List Char := "01.fits".toList

def suffixMwaf : List Char := ".mwaf".toList

/-- What the classifier loop (lines 73-125) reads from one entry of the
submitted filelist: the file name, the first/last record times
(header `TIME + MILLITIM/1000`) and the reported `NAXIS2` fine-channel
count, the latter three consulted only when the name classifies the
file as a data file. -/
structure MWAFile where
  name : List Char
  firstTime : ℚ
  lastTime : ℚ
  naxis2 : Option Nat

/-- Models `int(...)` applied to a run of decimal digits. -/
def digitsToNat (l : List Char) : Nat := l.foldl (fun n c => 10 * n + (c.toNat - 48)) 0

/-- Line 85, `int(file.split('_')[-2][-2:])`: the two-digit file
number encoded in a data file name. Failure modes of the Python
expression (too few tokens, non-numeric digits) are collapsed to 0;
the classifier only evaluates this on data-file names. -/
def fileNumOf (s : List Char) : Nat :=
  digitsToNat ((fun tok => tok.drop (tok.length - 2))
    ((s.splitOn '_').getD ((s.splitOn '_').length - 2) []))

/-- The loop state of the classifier scan. `err` models a raised
exception: once set, the loop is frozen (the Python `raise` aborts the
whole read). -/
structure ScanState where
  metafits : Option (List Char)
  datafiles : List (List Char)
  flagfiles : List (List Char)
  includedFileNums : List Nat
  startTime : ℚ
  endTime : ℚ
  numFineChans : Nat
  cotterWarned : Bool
  warnings : List String
  err : Option String

def initScanState : ScanState :=
  ⟨none, [], [], [], 0, 0, 0, false, [], none⟩

/-- One iteration of the classifier loop over the filelist (lines
73-125): the four filename-suffix classes, in source order; any other
file falls through to `continue` and leaves everything unchanged. -/
def scanStep (useCotterFlags : Bool) (st : ScanState) (f : MWAFile) : ScanState :=
  if st.err.isSome then st
  else if nameEndsWith (lowerName f.name) suffixMetafits then
    match st.metafits with
    | some _ => { st with err := some "multiple metafits files in filelist" }
    | none => { st with metafits := some f.name }
  else if nameEndsWith (lowerName f.name) suffixData00
      || nameEndsWith (lowerName f.name) suffixData01 then
    let fileNum := fileNumOf f.name
    let st1 := if fileNum ∈ st.includedFileNums then st
               else { st with includedFileNums := st.includedFileNums ++ [fileNum] }
    let st2 := { st1 with
      startTime := if st1.startTime = 0 ∨ st1.startTime > f.firstTime then f.firstTime
                   else st1.startTime,
      endTime := if st1.endTime < f.lastTime then f.lastTime else st1.endTime }
    match updFineChans st2.numFineChans f.naxis2 with
    | Except.ok n => { st2 with numFineChans := n, datafiles := st2.datafiles ++ [f.name] }
    | Except.error e => { st2 with err := some e }
  else if nameEndsWith (lowerName f.name) suffixMwaf then
    if useCotterFlags = false ∧ st.cotterWarned = false then
      { st with warnings := st.warnings ++ ["mwaf files submitted but will not be used"],
                cotterWarned := true }
    else { st with flagfiles := st.flagfiles ++ [f.name] }
  else st

/-- The classifier scan over the whole filelist. -/
def scanFiles (useCotterFlags : Bool) (files : List MWAFile) : ScanState :=
  files.foldl (scanStep useCotterFlags) initScanState

/-- Claim C10: a file whose lowercased name ends in none of
'.metafits', '00.fits', '01.fits', '.mwaf' is silently skipped: the
scan raises no error and emits no warning for it, and the scan state
after the full loop — through which alone the produced output depends
on the filelist — is identical to the scan with the file absent. -/
theorem mwa_c10 (useCotterFlags : Bool) (pre post : List MWAFile) (f : MWAFile)
    (h1 : nameEndsWith (lowerName f.name) suffixMetafits = false)
    (h2 : nameEndsWith (lowerName f.name) suffixData00 = false)
    (h3 : nameEndsWith (lowerName f.name) suffixData01 = false)
    (h4 : nameEndsWith (lowerName f.name) suffixMwaf = false) :
    scanFiles useCotterFlags (pre ++ f :: post) = scanFiles useCotterFlags (pre ++ post) := by
  have hstep : ∀ st, scanStep useCotterFlags st f = st := by
    intro st
    simp [scanStep, h1, h2, h3, h4]
  unfold scanFiles
  rw [List.foldl_append, List.foldl_append, List.foldl_cons, hstep]

/-- Witness for C10: a stray `readme.txt` leaves the scan of a
one-metafits filelist unchanged. -/
theorem mwa_c10_witness :
    scanFiles false [⟨"obs.metafits".toList, 0, 0, none⟩, ⟨"readme.txt".toList, 0, 0, none⟩] =
      scanFiles false [⟨"obs.metafits".toList, 0, 0, none⟩] := by
  have h := mwa_c10 false [⟨"obs.metafits".toList, 0, 0, none⟩] []
    ⟨"readme.txt".toList, 0, 0, none⟩ (by decide) (by decide) (by decide) (by decide)
  simpa using h
